import Mathlib

/-!
# Verification of the Steam mass launch options setter

Shallow embedding of the program's core: the VDF document model
(nested ordered key-value tree, parser and serializer) and the bulk
launch-options edit loop of `MainWindow.set_launch_options`
(`src/steam_mass_launch_ops_setter.pyw`, lines 195-234).
-/

/-- A node of the parsed VDF document tree: either a string leaf value or a
nested section holding an ordered list of key / node pairs (the in-memory
image of a Python `dict` as produced by `vdf.load`, which preserves
insertion order and has unique keys). -/
inductive Node where
  | leaf : String → Node
  | sec : List (String × Node) → Node

/-- A parsed document: the implicit top-level section's entry list. -/
abbrev Document := List (String × Node)

/-- Lexer tokens of the VDF wire format: a quoted (already unescaped)
string, an opening brace, or a closing brace. -/
inductive Tok where
  | str : String → Tok
  | lbrace : Tok
  | rbrace : Tok
deriving DecidableEq

/-- Modelled from the spec (§4.1, §6): escaping of a leaf value or key on
serialization; backslash is the escape character for embedded quote and
backslash. The `vdf` library performing this is an external dependency,
not part of the repository's sources. -/
def escapeChars : List Char → List Char
  | [] => []
  | c :: rest =>
    if c = '"' ∨ c = '\\' then '\\' :: c :: escapeChars rest
    else c :: escapeChars rest

/-- Modelled from the spec (§4.1, §6): single-pass lexer of the wire
format.  `mode = none` means we are between tokens (whitespace skipped,
braces recognized); `mode = some acc` means we are inside a quoted string
with `acc` holding the read characters in reverse.  Unterminated strings,
a dangling escape and unrecognized characters yield `none` (ParseError). -/
def lexAux : List Char → Option (List Char) → Option (List Tok)
  | [], none => some []
  | [], some _ => none
  | c :: rest, some acc =>
    if c = '"' then (lexAux rest none).map (fun ts => Tok.str ⟨acc.reverse⟩ :: ts)
    else if c = '\\' then
      match rest with
      | [] => none
      | e :: rest2 => lexAux rest2 (some (e :: acc))
    else lexAux rest (some (c :: acc))
  | c :: rest, none =>
    if c = '"' then lexAux rest (some [])
    else if c = '{' then (lexAux rest none).map (fun ts => Tok.lbrace :: ts)
    else if c = '}' then (lexAux rest none).map (fun ts => Tok.rbrace :: ts)
    else if c = ' ' ∨ c = '\t' ∨ c = '\n' ∨ c = '\r' then lexAux rest none
    else none

/-- Insertion into an ordered key-value list with Python `dict` assignment
semantics: if the key is present its (first) binding's value is replaced in
place, otherwise the new pair is appended at the end. -/
def dinsert : List (String × Node) → String → Node → List (String × Node)
  | [], key, v => [(key, v)]
  | (k, w) :: rest, key, v =>
    if k = key then (k, v) :: rest else (k, w) :: dinsert rest key v

/-- Modelled from the spec (§4.1): recursive-descent parsing of the token
stream, written with an explicit stack of partially built enclosing
sections.  A key must be followed by a value (quoted string or block);
unbalanced braces and a key at end of input are errors.  Duplicate sibling
keys follow the documented last-write-wins policy via `dinsert`. -/
def parseLoop : List Tok → List (String × Node) → List (String × List (String × Node)) →
    Option (List (String × Node))
  | [], acc, [] => some acc
  | [], _, _ :: _ => none
  | Tok.str k :: Tok.str v :: ts, acc, stk => parseLoop ts (dinsert acc k (Node.leaf v)) stk
  | Tok.str k :: Tok.lbrace :: ts, acc, stk => parseLoop ts [] ((k, acc) :: stk)
  | Tok.rbrace :: ts, acc, (k, up) :: stk => parseLoop ts (dinsert up k (Node.sec acc)) stk
  | _, _, _ => none

/-- Modelled from the spec (§4.1): `Parse(bytes) → Document | ParseError`,
with `none` standing for the error outcome. -/
def Parse (b : List Char) : Option Document :=
  match lexAux b none with
  | none => none
  | some ts => parseLoop ts [] []

/-- Quoting of a key or leaf value on output. -/
def quoteStr (s : String) : List Char :=
  '"' :: (escapeChars s.data ++ ['"'])

/-- Tab indentation, one tab per nesting depth (spec §4.1). -/
def indent (d : Nat) : List Char := List.replicate d '\t'

mutual

/-- Modelled from the spec (§4.1): serialization of one `key value` or
`key` + nested block entry at depth `d`. -/
def serializePair : String → Node → Nat → List Char
  | k, Node.leaf s, d =>
    indent d ++ quoteStr k ++ [' '] ++ quoteStr s ++ ['\n']
  | k, Node.sec es, d =>
    indent d ++ quoteStr k ++ ['\n'] ++ indent d ++ ['{', '\n'] ++
      serializeEntries es (d + 1) ++ indent d ++ ['}', '\n']

/-- Modelled from the spec (§4.1): serialization of a section's entries in
stored order, each on its own line. -/
def serializeEntries : List (String × Node) → Nat → List Char
  | [], _ => []
  | (k, v) :: rest, d => serializePair k v d ++ serializeEntries rest d

end

/-- Modelled from the spec (§4.1): `Serialize(Document) → bytes`; the
top-level section omits its own braces. -/
def Serialize (doc : Document) : List Char := serializeEntries doc 0

/-- An app's configuration subsection (one immediate child of the `apps`
section): an ordered key-value list, the image of a Python `dict`. -/
abbrev Conf := List (String × Node)

/-- Lookup in an ordered key-value list, Python `dict` access semantics
(first binding of the key). -/
def lookupKey : Conf → String → Option Node
  | [], _ => none
  | (k, v) :: rest, key => if k = key then some v else lookupKey rest key

/-- Deletion from an ordered key-value list, Python `del` semantics: the
key's (first) binding is removed, all other bindings keep their order. -/
def eraseKey : Conf → String → Conf
  | [], _ => []
  | (k, v) :: rest, key => if k = key then rest else (k, v) :: eraseKey rest key

/-- Python's `ops != new_option` where `ops` came out of the parsed tree
and `new_option` is a string: a leaf compares by string equality, a nested
section is never equal to a string. -/
def nodeNeqStr : Node → String → Bool
  | Node.leaf v, s => v != s
  | Node.sec _, _ => true

/-- The field key edited by the program. -/
def launchKey : String := "LaunchOptions"

/-- One iteration of the edit loop of `MainWindow.set_launch_options`
(lines 200-224) on a single app's configuration: returns the updated
configuration, this app's contribution to the `altered` counter, and the
advisory (the existing options printed when they differ from a non-empty
`new_option`).  The `overwrite` parameter stands for the module constant
`OVERWRITE` (line 35) read by the loop. -/
def applyChild (conf : Conf) (new_option : String) (overwrite : Bool) :
    Conf × Nat × Option Node :=
  match lookupKey conf launchKey with
  | some ops =>
    if new_option ≠ "" then
      if nodeNeqStr ops new_option then
        (if overwrite then dinsert conf launchKey (Node.leaf new_option) else conf,
         if overwrite then 1 else 0,
         some ops)
      else (conf, 0, none)
    else (eraseKey conf launchKey, 1, none)
  | none =>
    if new_option ≠ "" then (dinsert conf launchKey (Node.leaf new_option), 1, none)
    else (conf, 0, none)

/-- The outcome of one run of the edit loop: children visited, children
altered, and the advisories (app id with its existing options) emitted for
children whose existing options differ from a non-empty `new_option`. -/
structure EditReport where
  visited : Nat
  altered : Nat
  advisories : List (String × Node)

/-- The edit loop of `MainWindow.set_launch_options` (lines 195-224) over
the immediate children of the `apps` section, in stored order: each child
is one Steam app's configuration subsection, keyed by app id.  Returns
the updated children and the report. -/
def set_launch_options (children : List (String × Conf)) (new_option : String)
    (overwrite : Bool) : List (String × Conf) × EditReport :=
  match children with
  | [] => ([], ⟨0, 0, []⟩)
  | (appid, conf) :: rest =>
    let pc := applyChild conf new_option overwrite
    let pr := set_launch_options rest new_option overwrite
    ((appid, pc.1) :: pr.1,
     ⟨pr.2.visited + 1, pc.2.1 + pr.2.altered,
      (pc.2.2.map (fun ops => (appid, ops))).toList ++ pr.2.advisories⟩)

/-- View of the edited subtree as document entries (each child wrapped
back into a section node), as it would sit inside the dumped document. -/
def childrenToEntries (children : List (String × Conf)) : List (String × Node) :=
  children.map (fun c => (c.1, Node.sec c.2))

/-- The persistence step of `MainWindow.set_launch_options` (lines
226-234): when nothing was altered, only an error dialog is shown and no
bytes are written (`none`); otherwise the edited record is serialized and
written back (`some bytes`).  The record is abstracted to the subtree
being edited. -/
def set_launch_options_save (children : List (String × Conf)) (new_option : String)
    (overwrite : Bool) : Option (List Char) :=
  if (set_launch_options children new_option overwrite).2.altered = 0 then none
  else some (Serialize (childrenToEntries
    (set_launch_options children new_option overwrite).1))

/-- The three-child section of the spec's Scenarios A, B and C. -/
def scenarioChildren : List (String × Conf) :=
  [("10", [(launchKey, Node.leaf "-a")]),
   ("20", []),
   ("30", [(launchKey, Node.leaf "-x")])]

mutual

/-- Token stream a single `key value` or `key` + block entry produces. -/
def tokensPair : String → Node → List Tok
  | k, Node.leaf v => [Tok.str k, Tok.str v]
  | k, Node.sec es => Tok.str k :: Tok.lbrace :: (tokensEntries es ++ [Tok.rbrace])

/-- Token stream a section's entry list produces. -/
def tokensEntries : List (String × Node) → List Tok
  | [] => []
  | (k, v) :: rest => tokensPair k v ++ tokensEntries rest

end

mutual

/-- Well-formedness of a node: every section below it has pairwise
distinct keys (always true of trees parsed from Python dicts). -/
inductive NodeWF : Node → Prop where
  | leaf : ∀ s, NodeWF (Node.leaf s)
  | sec : ∀ es, SectionWF es → NodeWF (Node.sec es)

/-- Well-formedness of a section's entry list: keys are pairwise distinct
and every value is well-formed. -/
inductive SectionWF : List (String × Node) → Prop where
  | nil : SectionWF []
  | cons : ∀ k v rest, k ∉ rest.map Prod.fst → NodeWF v → SectionWF rest →
      SectionWF ((k, v) :: rest)

end

/-! ## Basic facts about the ordered key-value operations -/

theorem lookupKey_eq_none_iff (conf : Conf) (key : String) :
    lookupKey conf key = none ↔ key ∉ conf.map Prod.fst := by
  induction conf with
  | nil => simp [lookupKey]
  | cons p rest ih =>
    obtain ⟨k, v⟩ := p
    by_cases h : k = key <;> simp [lookupKey, h, ih, Ne.symm]

theorem lookupKey_isSome_iff (conf : Conf) (key : String) :
    (lookupKey conf key).isSome = true ↔ key ∈ conf.map Prod.fst := by
  rw [Option.isSome_iff_ne_none, ne_eq, lookupKey_eq_none_iff, not_not]

theorem dinsert_of_not_mem {conf : Conf} {key : String} (v : Node)
    (h : key ∉ conf.map Prod.fst) : dinsert conf key v = conf ++ [(key, v)] := by
  induction conf with
  | nil => simp [dinsert]
  | cons p rest ih =>
    obtain ⟨k, w⟩ := p
    simp only [List.map_cons, List.mem_cons, not_or] at h
    simp [dinsert, Ne.symm h.1, ih h.2]

theorem lookupKey_dinsert_self (conf : Conf) (key : String) (v : Node) :
    lookupKey (dinsert conf key v) key = some v := by
  induction conf with
  | nil => simp [dinsert, lookupKey]
  | cons p rest ih =>
    obtain ⟨k, w⟩ := p
    by_cases h : k = key <;> simp [dinsert, lookupKey, h, ih]

theorem map_fst_dinsert_mem {conf : Conf} {key : String} (v : Node)
    (h : key ∈ conf.map Prod.fst) :
    (dinsert conf key v).map Prod.fst = conf.map Prod.fst := by
  induction conf with
  | nil => simp at h
  | cons p rest ih =>
    obtain ⟨k, w⟩ := p
    by_cases hk : k = key
    · simp [dinsert, hk]
    · simp only [List.map_cons, List.mem_cons] at h
      rcases h with h | h

      · exact absurd h.symm hk
      · simp [dinsert, hk, ih h]

theorem map_fst_dinsert_not_mem {conf : Conf} {key : String} (v : Node)
    (h : key ∉ conf.map Prod.fst) :
    (dinsert conf key v).map Prod.fst = conf.map Prod.fst ++ [key] := by
  rw [dinsert_of_not_mem v h]; simp

theorem map_fst_eraseKey (conf : Conf) (key : String) :
    (eraseKey conf key).map Prod.fst = (conf.map Prod.fst).erase key := by
  induction conf with
  | nil => simp [eraseKey]
  | cons p rest ih =>
    obtain ⟨k, w⟩ := p
    by_cases h : k = key <;>
      simp [eraseKey, h, List.erase_cons, ih]

theorem filter_dinsert (conf : Conf) (key : String) (v : Node) :
    (dinsert conf key v).filter (fun e => e.1 != key) =
      conf.filter (fun e => e.1 != key) := by
  induction conf with
  | nil => simp [dinsert]
  | cons p rest ih =>
    obtain ⟨k, w⟩ := p
    by_cases h : k = key <;> simp [dinsert, h, List.filter_cons, ih]

theorem filter_eraseKey (conf : Conf) (key : String) :
    (eraseKey conf key).filter (fun e => e.1 != key) =
      conf.filter (fun e => e.1 != key) := by
  induction conf with
  | nil => simp [eraseKey]
  | cons p rest ih =>
    obtain ⟨k, w⟩ := p
    by_cases h : k = key <;> simp [eraseKey, h, List.filter_cons, ih]

theorem lookupKey_eraseKey_self {conf : Conf} (key : String)
    (h : (conf.map Prod.fst).Nodup) :
    lookupKey (eraseKey conf key) key = none := by
  induction conf with
  | nil => simp [eraseKey, lookupKey]
  | cons p rest ih =>
    obtain ⟨k, w⟩ := p
    simp only [List.map_cons, List.nodup_cons] at h
    by_cases hk : k = key
    · subst hk
      simpa [eraseKey] using (lookupKey_eq_none_iff rest k).mpr h.1
    · simp [eraseKey, hk, lookupKey, ih h.2]

/-! ## Per-child behavior of the edit rule -/

theorem nodeNeqStr_eq_false_iff (ops : Node) (s : String) :
    nodeNeqStr ops s = false ↔ ops = Node.leaf s := by
  cases ops with
  | leaf v => simp [nodeNeqStr, bne]
  | sec es => simp [nodeNeqStr]

theorem nodeNeqStr_eq_true_iff (ops : Node) (s : String) :
    nodeNeqStr ops s = true ↔ ops ≠ Node.leaf s := by
  rw [← Bool.not_eq_false, ne_eq, not_iff_not, nodeNeqStr_eq_false_iff]

theorem applyChild_present_differs_true {conf : Conf} {ops : Node} {new : String}
    (h : lookupKey conf launchKey = some ops) (hne : nodeNeqStr ops new = true)
    (hnew : new ≠ "") :
    applyChild conf new true =
      (dinsert conf launchKey (Node.leaf new), 1, some ops) := by
  simp [applyChild, h, hne, hnew]

theorem applyChild_present_differs_false {conf : Conf} {ops : Node} {new : String}
    (h : lookupKey conf launchKey = some ops) (hne : nodeNeqStr ops new = true)
    (hnew : new ≠ "") :
    applyChild conf new false = (conf, 0, some ops) := by
  simp [applyChild, h, hne, hnew]

theorem applyChild_present_equal {conf : Conf} {ops : Node} {new : String}
    (ow : Bool) (h : lookupKey conf launchKey = some ops)
    (hne : nodeNeqStr ops new = false) (hnew : new ≠ "") :
    applyChild conf new ow = (conf, 0, none) := by
  simp [applyChild, h, hne, hnew]

theorem applyChild_erase_present {conf : Conf} {ops : Node} (ow : Bool)
    (h : lookupKey conf launchKey = some ops) :
    applyChild conf "" ow = (eraseKey conf launchKey, 1, none) := by
  simp [applyChild, h]

theorem applyChild_erase_absent {conf : Conf} (ow : Bool)
    (h : lookupKey conf launchKey = none) :
    applyChild conf "" ow = (conf, 0, none) := by
  simp [applyChild, h]

theorem applyChild_absent_set {conf : Conf} {new : String} (ow : Bool)
    (h : lookupKey conf launchKey = none) (hnew : new ≠ "") :
    applyChild conf new ow =
      (dinsert conf launchKey (Node.leaf new), 1, none) := by
  simp [applyChild, h, hnew]

/-- The updated configuration is always one of: unchanged, the key set,
or the key erased. -/
theorem applyChild_shape (conf : Conf) (new : String) (ow : Bool) :
    (applyChild conf new ow).1 = conf ∨
    (applyChild conf new ow).1 = dinsert conf launchKey (Node.leaf new) ∨
    (applyChild conf new ow).1 = eraseKey conf launchKey := by
  unfold applyChild
  cases h : lookupKey conf launchKey <;>
    by_cases hnew : new = "" <;> simp [hnew] <;>
    cases hne : nodeNeqStr _ new <;> simp <;>
    cases ow <;> simp

/-- A child that contributes nothing to the `altered` counter is returned
unchanged. -/
theorem applyChild_zero (conf : Conf) (new : String) (ow : Bool)
    (h : (applyChild conf new ow).2.1 = 0) : (applyChild conf new ow).1 = conf := by
  unfold applyChild at *
  cases hl : lookupKey conf launchKey <;> simp [hl] at h ⊢ <;>
    by_cases hnew : new = "" <;> simp [hnew] at h ⊢
  · cases hne : nodeNeqStr _ new <;> simp [hne] at h ⊢
    cases ow <;> simp_all

/-! ## The edit loop in closed form -/

/-- Closed form of one run of the edit loop: the children are mapped
pointwise (in stored order), `visited` is the child count, `altered` is
the sum of per-child contributions and the advisories are collected in
stored order. -/
theorem set_launch_options_eq (children : List (String × Conf)) (new : String)
    (ow : Bool) :
    set_launch_options children new ow =
      (children.map (fun c => (c.1, (applyChild c.2 new ow).1)),
       ⟨children.length,
        (children.map (fun c => (applyChild c.2 new ow).2.1)).sum,
        children.filterMap
          (fun c => ((applyChild c.2 new ow).2.2).map (fun ops => (c.1, ops)))⟩) := by
  induction children with
  | nil => rfl
  | cons c rest ih =>
    obtain ⟨appid, conf⟩ := c
    simp only [set_launch_options, ih, List.map_cons, List.length_cons, List.sum_cons,
      List.filterMap_cons]
    cases (applyChild conf new ow).2.2 <;> simp

theorem set_launch_options_fst_map (children : List (String × Conf)) (new : String)
    (ow : Bool) :
    (set_launch_options children new ow).1 =
      children.map (fun c => (c.1, (applyChild c.2 new ow).1)) := by
  rw [set_launch_options_eq]

theorem set_launch_options_altered (children : List (String × Conf)) (new : String)
    (ow : Bool) :
    (set_launch_options children new ow).2.altered =
      (children.map (fun c => (applyChild c.2 new ow).2.1)).sum := by
  rw [set_launch_options_eq]

/-- Members of the zip of a list with a pointwise map of it are exactly
the pairs of an element with its image. -/
theorem mem_zip_map {α β : Type} {l : List α} {f : α → β} {p : α × β}
    (h : p ∈ l.zip (l.map f)) : p.2 = f p.1 := by
  induction l with
  | nil => simp at h
  | cons a rest ih =>
    simp only [List.map_cons, List.zip_cons_cons, List.mem_cons] at h
    rcases h with h | h
    · rw [h]
    · exact ih h

/-! ## Claims about the edit rule -/

/-- C1: for every immediate child whose existing `LaunchOptions` value is
present and differs from a present (non-empty) new value, the edit rule
with the overwrite flag true sets the field to the new value and counts
that child as altered; on the three-child section of Scenario B with new
value `-x` the altered count is 2 (children `10` and `20`). -/
theorem claim_C1 :
    (∀ (conf : Conf) (ops : Node) (new : String),
      lookupKey conf launchKey = some ops → nodeNeqStr ops new = true → new ≠ "" →
      lookupKey (applyChild conf new true).1 launchKey = some (Node.leaf new) ∧
      (applyChild conf new true).2.1 = 1) ∧
    ((set_launch_options scenarioChildren "-x" true).1 =
      [("10", [(launchKey, Node.leaf "-x")]),
       ("20", [(launchKey, Node.leaf "-x")]),
       ("30", [(launchKey, Node.leaf "-x")])] ∧
     (set_launch_options scenarioChildren "-x" true).2.altered = 2) := by
  refine ⟨fun conf ops new h hne hnew => ?_, rfl, rfl⟩
  rw [applyChild_present_differs_true h hne hnew]
  exact ⟨lookupKey_dinsert_self conf launchKey (Node.leaf new), rfl⟩

/-- Witness for C1 on a one-entry configuration holding `-a`. -/
theorem claim_C1_witness :
    lookupKey (applyChild [(launchKey, Node.leaf "-a")] "-x" true).1 launchKey =
      some (Node.leaf "-x") ∧
    (applyChild [(launchKey, Node.leaf "-a")] "-x" true).2.1 = 1 :=
  claim_C1.1 [(launchKey, Node.leaf "-a")] (Node.leaf "-a") "-x" rfl rfl (by decide)

/-- C2: for every immediate child whose existing `LaunchOptions` value is
present and differs from a present (non-empty) new value, the edit rule
with the overwrite flag false leaves the child unchanged, does not count
it as altered, and reports the advisory; on the three-child section of
Scenario A with new value `-x` only child `20` is set and the altered
count is 1. -/
theorem claim_C2 :
    (∀ (conf : Conf) (ops : Node) (new : String),
      lookupKey conf launchKey = some ops → nodeNeqStr ops new = true → new ≠ "" →
      applyChild conf new false = (conf, 0, some ops)) ∧
    set_launch_options scenarioChildren "-x" false =
      ([("10", [(launchKey, Node.leaf "-a")]),
        ("20", [(launchKey, Node.leaf "-x")]),
        ("30", [(launchKey, Node.leaf "-x")])],
       ⟨3, 1, [("10", Node.leaf "-a")]⟩) := by
  exact ⟨fun conf ops new h hne hnew =>
    applyChild_present_differs_false h hne hnew, rfl⟩

/-- Witness for C2 on a one-entry configuration holding `-a`. -/
theorem claim_C2_witness :
    applyChild [(launchKey, Node.leaf "-a")] "-x" false =
      ([(launchKey, Node.leaf "-a")], 0, some (Node.leaf "-a")) :=
  claim_C2.1 [(launchKey, Node.leaf "-a")] (Node.leaf "-a") "-x" rfl rfl (by decide)

/-- C7: on a parent section with zero immediate children the edit loop
completes normally with a report of all zeros: zero visited, zero altered
and no advisories. -/
theorem claim_C7 : ∀ (new : String) (ow : Bool),
    set_launch_options [] new ow = ([], ⟨0, 0, []⟩) :=
  fun _ _ => rfl

/-- With an absent (empty) new value the per-child contribution to
`altered` is 1 exactly when the child has the key. -/
theorem applyChild_erase_altered (conf : Conf) (ow : Bool) :
    (applyChild conf "" ow).2.1 =
      if (lookupKey conf launchKey).isSome then 1 else 0 := by
  cases hl : lookupKey conf launchKey
  · rw [applyChild_erase_absent ow hl]; simp
  · rw [applyChild_erase_present ow hl]; simp

/-- With an absent (empty) new value the altered count is the number of
children having the key. -/
theorem set_launch_options_erase_altered (children : List (String × Conf)) (ow : Bool) :
    (set_launch_options children "" ow).2.altered =
      (children.filter (fun c => (lookupKey c.2 launchKey).isSome)).length := by
  rw [set_launch_options_altered]
  induction children with
  | nil => rfl
  | cons c rest ih =>
    rw [List.map_cons, List.sum_cons, List.filter_cons, applyChild_erase_altered]
    cases hl : (lookupKey c.2 launchKey).isSome <;> simp [ih] <;> omega

/-- C3: with an absent (empty) new value the edit loop removes the
`LaunchOptions` key from every child having it (counting each removal)
and leaves children lacking it untouched; whenever every child has the
key and keys are unduplicated, the altered count equals the child count
and no child retains the key, regardless of the overwrite flag. -/
theorem claim_C3 (children : List (String × Conf)) (ow : Bool) :
    ((set_launch_options children "" ow).1 =
      children.map (fun c =>
        (c.1, if (lookupKey c.2 launchKey).isSome
              then eraseKey c.2 launchKey else c.2)) ∧
     (set_launch_options children "" ow).2.altered =
      (children.filter (fun c => (lookupKey c.2 launchKey).isSome)).length) ∧
    ((∀ c ∈ children, (lookupKey c.2 launchKey).isSome = true) →
     (∀ c ∈ children, (c.2.map Prod.fst).Nodup) →
     (set_launch_options children "" ow).2.altered = children.length ∧
     ∀ c ∈ (set_launch_options children "" ow).1,
       lookupKey c.2 launchKey = none) := by
  have hfst : (set_launch_options children "" ow).1 =
      children.map (fun c =>
        (c.1, if (lookupKey c.2 launchKey).isSome
              then eraseKey c.2 launchKey else c.2)) := by
    rw [set_launch_options_fst_map]
    apply List.map_congr_left
    intro c _
    cases hl : lookupKey c.2 launchKey
    · rw [applyChild_erase_absent ow hl]; simp [hl]
    · rw [applyChild_erase_present ow hl]; simp [hl]
  have halt := set_launch_options_erase_altered children ow
  refine ⟨⟨hfst, halt⟩, fun hall hnod => ⟨?_, ?_⟩⟩
  · rw [halt, List.filter_eq_self.mpr hall]
  · intro c hc
    rw [hfst] at hc
    obtain ⟨c0, hc0, hceq⟩ := List.mem_map.mp hc
    rw [← hceq]
    simp only [hall c0 hc0, if_true]
    exact lookupKey_eraseKey_self launchKey (hnod c0 hc0)

/-- Witness for C3 on a two-child section where both children have
launch options set. -/
theorem claim_C3_witness :
    (set_launch_options
      [("10", [(launchKey, Node.leaf "-a")]), ("30", [(launchKey, Node.leaf "-x")])]
      "" false).2.altered = 2 ∧
    ∀ c ∈ (set_launch_options
      [("10", [(launchKey, Node.leaf "-a")]), ("30", [(launchKey, Node.leaf "-x")])]
      "" false).1, lookupKey c.2 launchKey = none :=
  (claim_C3 [("10", [(launchKey, Node.leaf "-a")]),
             ("30", [(launchKey, Node.leaf "-x")])] false).2
    (by decide) (by decide)

/-- After one overwriting run with a non-empty new value, every child's
`LaunchOptions` binding is exactly the new value. -/
theorem applyChild_overwrite_lookup (conf : Conf) (new : String) (hnew : new ≠ "") :
    lookupKey (applyChild conf new true).1 launchKey = some (Node.leaf new) := by
  cases hl : lookupKey conf launchKey
  · rw [applyChild_absent_set true hl hnew]
    exact lookupKey_dinsert_self conf launchKey (Node.leaf new)
  case some ops =>
    cases hne : nodeNeqStr ops new
    · rw [applyChild_present_equal true hl hne hnew]
      rw [hl, (nodeNeqStr_eq_false_iff ops new).mp hne]
    · rw [applyChild_present_differs_true hl hne hnew]
      exact lookupKey_dinsert_self conf launchKey (Node.leaf new)

/-- A child already holding the new value contributes nothing on a second
overwriting run. -/
theorem applyChild_converged (conf : Conf) (new : String) (hnew : new ≠ "") :
    (applyChild (applyChild conf new true).1 new true).2.1 = 0 := by
  have hl := applyChild_overwrite_lookup conf new hnew
  have hne : nodeNeqStr (Node.leaf new) new = false := by simp [nodeNeqStr]
  rw [applyChild_present_equal true hl hne hnew]

/-- C5: with a fixed non-empty new value, running the edit loop with
overwrite twice gives an altered count of 0 on the second run: the first
run already converged every child to the new value. -/
theorem claim_C5 (children : List (String × Conf)) (new : String) (hnew : new ≠ "") :
    (set_launch_options (set_launch_options children new true).1 new true).2.altered
      = 0 := by
  rw [set_launch_options_fst_map, set_launch_options_altered, List.map_map]
  apply List.sum_eq_zero
  intro x hx
  obtain ⟨c, _, hceq⟩ := List.mem_map.mp hx
  rw [← hceq]
  exact applyChild_converged c.2 new hnew

/-- Witness for C5 on the three-child scenario section. -/
theorem claim_C5_witness :
    (set_launch_options (set_launch_options scenarioChildren "-x" true).1
      "-x" true).2.altered = 0 :=
  claim_C5 scenarioChildren "-x" (by decide)

/-- C6 counterexample: on a one-child section whose child does have the
`LaunchOptions` key ("no child already missing the field key"), the first
erase run (`new_option` empty, overwrite false) deletes the key and
reports `altered = 1`, not the `altered = 0` the claim asserts. -/
theorem claim_C6_cex :
    (∀ c ∈ ([("10", [(launchKey, Node.leaf "-a")])] : List (String × Conf)),
      (lookupKey c.2 launchKey).isSome = true) ∧
    (set_launch_options [("10", [(launchKey, Node.leaf "-a")])] "" false).2.altered
      ≠ 0 := by
  exact ⟨by decide, by decide⟩

/-- C6 (amended): calling the edit operation with the new value absent
and overwrite false twice in a row on a section with no child HAVING the
field key produces the same report with `altered = 0` on both calls and
leaves the tree unchanged. -/
theorem claim_C6 (children : List (String × Conf))
    (h : ∀ c ∈ children, (lookupKey c.2 launchKey).isSome = false) :
    (set_launch_options children "" false).1 = children ∧
    (set_launch_options children "" false).2.altered = 0 ∧
    set_launch_options (set_launch_options children "" false).1 "" false =
      set_launch_options children "" false := by
  have hnone : ∀ c ∈ children, lookupKey c.2 launchKey = none := by
    intro c hc
    cases hl : lookupKey c.2 launchKey
    · rfl
    · have := h c hc; rw [hl] at this; simp at this
  have hmap : (set_launch_options children "" false).1 = children := by
    rw [set_launch_options_fst_map]
    have : ∀ c ∈ children, (c.1, (applyChild c.2 "" false).1) = c := by
      intro c hc
      rw [applyChild_erase_absent false (hnone c hc)]
    rw [List.map_congr_left this]
    exact List.map_id' children
  refine ⟨hmap, ?_, by rw [hmap]⟩
  rw [set_launch_options_altered]
  apply List.sum_eq_zero
  intro x hx
  obtain ⟨c, hc, hceq⟩ := List.mem_map.mp hx
  rw [← hceq, applyChild_erase_absent false (hnone c hc)]

/-- Witness for C6 (amended) on a two-child section lacking the key. -/
theorem claim_C6_witness :
    (set_launch_options [("20", []), ("40", [("Other", Node.leaf "z")])]
      "" false).1 = [("20", []), ("40", [("Other", Node.leaf "z")])] ∧
    (set_launch_options [("20", []), ("40", [("Other", Node.leaf "z")])]
      "" false).2.altered = 0 ∧
    set_launch_options
      (set_launch_options [("20", []), ("40", [("Other", Node.leaf "z")])]
        "" false).1 "" false =
      set_launch_options [("20", []), ("40", [("Other", Node.leaf "z")])]
        "" false :=
  claim_C6 [("20", []), ("40", [("Other", Node.leaf "z")])] (by decide)

/-- The advisory a child produces, as a function of its existing binding:
emitted exactly when the key is present and its value differs from a
non-empty new value (the code prints it whether or not it overwrites). -/
theorem applyChild_advisory (conf : Conf) (new : String) (ow : Bool) :
    (applyChild conf new ow).2.2 =
      match lookupKey conf launchKey with
      | some ops =>
        if new ≠ "" ∧ nodeNeqStr ops new = true then some ops else none
      | none => none := by
  unfold applyChild
  cases hl : lookupKey conf launchKey
  · by_cases hnew : new = "" <;> simp [hnew]
  · by_cases hnew : new = "" <;> simp [hnew] <;>
      cases hne : nodeNeqStr _ new <;> simp

/-- C8: the edit loop never touches a grandchild, never reorders the
parent's children or the fields within a child, visits the children in
stored order (the advisories appear in that order), and in each child
every field other than `LaunchOptions` is unchanged; the `LaunchOptions`
key keeps its position when rewritten, is appended when added, and the
survivors' order is preserved when it is deleted. -/
theorem claim_C8 (children : List (String × Conf)) (new : String) (ow : Bool) :
    (set_launch_options children new ow).1.map Prod.fst = children.map Prod.fst ∧
    (∀ p ∈ children.zip (set_launch_options children new ow).1,
      p.2.2.filter (fun e => e.1 != launchKey) =
        p.1.2.filter (fun e => e.1 != launchKey) ∧
      (p.2.2.map Prod.fst = p.1.2.map Prod.fst ∨
       p.2.2.map Prod.fst = p.1.2.map Prod.fst ++ [launchKey] ∨
       p.2.2.map Prod.fst = (p.1.2.map Prod.fst).erase launchKey)) ∧
    (set_launch_options children new ow).2.advisories =
      children.filterMap (fun c =>
        match lookupKey c.2 launchKey with
        | some ops =>
          if new ≠ "" ∧ nodeNeqStr ops new = true then some (c.1, ops) else none
        | none => none) := by
  refine ⟨?_, ?_, ?_⟩
  · rw [set_launch_options_fst_map, List.map_map]
    exact List.map_congr_left (fun c _ => rfl)
  · intro p hp
    rw [set_launch_options_fst_map] at hp
    have h2 := mem_zip_map hp
    have h22 : p.2.2 = (applyChild p.1.2 new ow).1 := by rw [h2]
    rw [h22]
    rcases applyChild_shape p.1.2 new ow with h | h | h <;> rw [h]
    · exact ⟨rfl, Or.inl rfl⟩
    · refine ⟨filter_dinsert p.1.2 launchKey (Node.leaf new), ?_⟩
      by_cases hk : launchKey ∈ p.1.2.map Prod.fst
      · exact Or.inl (map_fst_dinsert_mem (Node.leaf new) hk)
      · exact Or.inr (Or.inl (map_fst_dinsert_not_mem (Node.leaf new) hk))
    · exact ⟨filter_eraseKey p.1.2 launchKey,
        Or.inr (Or.inr (map_fst_eraseKey p.1.2 launchKey))⟩
  · rw [set_launch_options_eq]
    apply List.filterMap_congr
    intro c _
    rw [applyChild_advisory]
    cases hl : lookupKey c.2 launchKey with
    | none => rfl
    | some ops =>
      by_cases hc : new ≠ "" ∧ nodeNeqStr ops new = true <;> simp [hc]

/-- Witness for C8: on Scenario B's first child (overwritten from `-a` to
`-x`) the non-`LaunchOptions` fields are untouched and the key order is
preserved. -/
theorem claim_C8_witness :
    ([(launchKey, Node.leaf "-x")] : Conf).filter (fun e => e.1 != launchKey) =
      ([(launchKey, Node.leaf "-a")] : Conf).filter (fun e => e.1 != launchKey) ∧
    (([(launchKey, Node.leaf "-x")] : Conf).map Prod.fst =
       ([(launchKey, Node.leaf "-a")] : Conf).map Prod.fst ∨
     ([(launchKey, Node.leaf "-x")] : Conf).map Prod.fst =
       ([(launchKey, Node.leaf "-a")] : Conf).map Prod.fst ++ [launchKey] ∨
     ([(launchKey, Node.leaf "-x")] : Conf).map Prod.fst =
       (([(launchKey, Node.leaf "-a")] : Conf).map Prod.fst).erase launchKey) :=
  (claim_C8 scenarioChildren "-x" true).2.1
    (("10", [(launchKey, Node.leaf "-a")]), ("10", [(launchKey, Node.leaf "-x")]))
    (List.Mem.head _)

/-- C9: the edited record is serialized and written back exactly when the
altered count is positive; with an altered count of zero nothing is
written (`none`), so the stored record is untouched. -/
theorem claim_C9 (children : List (String × Conf)) (new : String) (ow : Bool) :
    (set_launch_options_save children new ow = none ↔
      (set_launch_options children new ow).2.altered = 0) ∧
    (0 < (set_launch_options children new ow).2.altered →
      set_launch_options_save children new ow =
        some (Serialize (childrenToEntries (set_launch_options children new ow).1))) := by
  by_cases h : (set_launch_options children new ow).2.altered = 0 <;>
    simp [set_launch_options_save, h]

/-- Witness for C9 on Scenario B, where two children are altered. -/
theorem claim_C9_witness :
    set_launch_options_save scenarioChildren "-x" true =
      some (Serialize (childrenToEntries
        (set_launch_options scenarioChildren "-x" true).1)) :=
  (claim_C9 scenarioChildren "-x" true).2 (by decide)

/-- Each child either contributes 1 to `altered` and ends with a changed
`LaunchOptions` binding, or contributes 0 and ends with its binding (and,
by `applyChild_zero`, its whole configuration) unchanged. -/
theorem applyChild_change (conf : Conf) (new : String) (ow : Bool)
    (h : (conf.map Prod.fst).Nodup) :
    ((applyChild conf new ow).2.1 = 1 ∧
      lookupKey (applyChild conf new ow).1 launchKey ≠ lookupKey conf launchKey) ∨
    ((applyChild conf new ow).2.1 = 0 ∧
      lookupKey (applyChild conf new ow).1 launchKey = lookupKey conf launchKey) := by
  by_cases hnew : new = ""
  · subst hnew
    cases hl : lookupKey conf launchKey with
    | none =>
      right
      rw [applyChild_erase_absent ow hl]
      exact ⟨rfl, hl⟩
    | some ops =>
      left
      rw [applyChild_erase_present ow hl]
      refine ⟨rfl, ?_⟩
      rw [lookupKey_eraseKey_self launchKey h]
      simp
  · cases hl : lookupKey conf launchKey with
    | none =>
      left
      rw [applyChild_absent_set ow hl hnew, lookupKey_dinsert_self]
      simp
    | some ops =>
      cases hne : nodeNeqStr ops new with
      | false =>
        right
        rw [applyChild_present_equal ow hl hne hnew]
        exact ⟨rfl, hl⟩
      | true =>
        cases ow with
        | false =>
          right
          rw [applyChild_present_differs_false hl hne hnew]
          exact ⟨rfl, hl⟩
        | true =>
          left
          rw [applyChild_present_differs_true hl hne hnew,
            lookupKey_dinsert_self]
          have : ops ≠ Node.leaf new := (nodeNeqStr_eq_true_iff ops new).mp hne
          simp [this, Ne.symm this]

open Classical in
/-- C10: provided each child has unduplicated keys (always true of a
parsed Python dict), the altered count equals exactly the number of
immediate children whose `LaunchOptions` binding changed (was added,
removed or given a different value), and an altered count of zero means
the in-memory tree is identical to its state before the call. -/
theorem claim_C10 (children : List (String × Conf)) (new : String) (ow : Bool)
    (h : ∀ c ∈ children, (c.2.map Prod.fst).Nodup) :
    (set_launch_options children new ow).2.altered =
      ((children.zip (set_launch_options children new ow).1).filter
        (fun p => decide
          (lookupKey p.2.2 launchKey ≠ lookupKey p.1.2 launchKey))).length ∧
    ((set_launch_options children new ow).2.altered = 0 →
      (set_launch_options children new ow).1 = children) := by
  constructor
  · rw [set_launch_options_fst_map, set_launch_options_altered]
    induction children with
    | nil => rfl
    | cons c rest ih =>
      have hc := h c (List.mem_cons_self c rest)
      have hrest := fun d hd => h d (List.mem_cons_of_mem c hd)
      rw [List.map_cons, List.sum_cons, List.map_cons, List.zip_cons_cons,
        List.filter_cons]
      rcases applyChild_change c.2 new ow hc with ⟨h1, hne⟩ | ⟨h0, heq⟩
      · rw [if_pos (decide_eq_true hne), List.length_cons, ih hrest, h1]
        omega
      · rw [if_neg (by simp [heq]), ih hrest, h0]
        omega
  · intro h0
    rw [set_launch_options_fst_map]
    rw [set_launch_options_altered] at h0
    have hz := List.sum_eq_zero_iff.mp h0
    have : ∀ c ∈ children, (c.1, (applyChild c.2 new ow).1) = c := by
      intro c hc
      have : (applyChild c.2 new ow).2.1 = 0 :=
        hz _ (List.mem_map.mpr ⟨c, hc, rfl⟩)
      rw [applyChild_zero c.2 new ow this]
    rw [List.map_congr_left this]
    exact List.map_id' children

open Classical in
/-- Witness for C10 on Scenario A (overwrite off): one child's binding
changes and the altered count is 1. -/
theorem claim_C10_witness :
    (set_launch_options scenarioChildren "-x" false).2.altered =
      ((scenarioChildren.zip (set_launch_options scenarioChildren "-x" false).1).filter
        (fun p => decide
          (lookupKey p.2.2 launchKey ≠ lookupKey p.1.2 launchKey))).length ∧
    ((set_launch_options scenarioChildren "-x" false).2.altered = 0 →
      (set_launch_options scenarioChildren "-x" false).1 = scenarioChildren) :=
  claim_C10 scenarioChildren "-x" false (by decide)

/-! ## Round-trip of the document model: lexer lemmas -/

theorem lexAux_skip {c : Char} (x : List Char)
    (h1 : c ≠ '"') (h2 : c ≠ '{') (h3 : c ≠ '}')
    (h4 : c = ' ' ∨ c = '\t' ∨ c = '\n' ∨ c = '\r') :
    lexAux (c :: x) none = lexAux x none := by
  simp only [lexAux]
  rw [if_neg h1, if_neg h2, if_neg h3, if_pos h4]

theorem lexAux_space (x : List Char) : lexAux (' ' :: x) none = lexAux x none :=
  lexAux_skip x (by decide) (by decide) (by decide) (by decide)

theorem lexAux_tab (x : List Char) : lexAux ('\t' :: x) none = lexAux x none :=
  lexAux_skip x (by decide) (by decide) (by decide) (by decide)

theorem lexAux_newline (x : List Char) : lexAux ('\n' :: x) none = lexAux x none :=
  lexAux_skip x (by decide) (by decide) (by decide) (by decide)

theorem lexAux_indent (d : Nat) (x : List Char) :
    lexAux (indent d ++ x) none = lexAux x none := by
  induction d with
  | zero => rfl
  | succ n ih =>
    rw [indent, List.replicate_succ, List.cons_append, lexAux_tab]
    exact ih

theorem lexAux_lbrace (x : List Char) :
    lexAux ('{' :: x) none = (lexAux x none).map (fun ts => Tok.lbrace :: ts) := by
  simp [lexAux]

theorem lexAux_rbrace (x : List Char) :
    lexAux ('}' :: x) none = (lexAux x none).map (fun ts => Tok.rbrace :: ts) := by
  simp [lexAux]

/-- Unfolding equation of the lexer in string mode, valid for a tail of
any shape. -/
theorem lexAux_str_cons (c : Char) (rest : List Char) (acc : List Char) :
    lexAux (c :: rest) (some acc) =
      if c = '"' then (lexAux rest none).map (fun ts => Tok.str ⟨acc.reverse⟩ :: ts)
      else if c = '\\' then
        match rest with
        | [] => none
        | e :: rest2 => lexAux rest2 (some (e :: acc))
      else lexAux rest (some (c :: acc)) := by
  cases rest <;> rfl

/-- Inside a quoted string, consuming the escaped image of `cs` followed by
the closing quote appends `cs` to the accumulator and emits the token. -/
theorem lexAux_escape (cs : List Char) : ∀ (acc x : List Char),
    lexAux (escapeChars cs ++ '"' :: x) (some acc) =
      (lexAux x none).map (fun ts => Tok.str ⟨acc.reverse ++ cs⟩ :: ts) := by
  induction cs with
  | nil =>
    intro acc x
    show lexAux ('"' :: x) (some acc) = _
    rw [lexAux_str_cons, if_pos rfl]
    simp
  | cons c cs ih =>
    intro acc x
    by_cases hc : c = '"' ∨ c = '\\'
    · rw [escapeChars, if_pos hc]
      have step : lexAux (('\\' :: c :: escapeChars cs) ++ '"' :: x) (some acc) =
          lexAux (escapeChars cs ++ '"' :: x) (some (c :: acc)) := by
        show lexAux ('\\' :: (c :: (escapeChars cs ++ '"' :: x))) (some acc) = _
        simp [lexAux]
      rw [step, ih (c :: acc) x]
      simp
    · rw [escapeChars, if_neg hc]
      push_neg at hc
      have step : lexAux ((c :: escapeChars cs) ++ '"' :: x) (some acc) =
          lexAux (escapeChars cs ++ '"' :: x) (some (c :: acc)) := by
        show lexAux (c :: (escapeChars cs ++ '"' :: x)) (some acc) = _
        rw [lexAux_str_cons, if_neg hc.1, if_neg hc.2]
      rw [step, ih (c :: acc) x]
      simp

/-- Lexing a quoted string recovers it and continues with the rest. -/
theorem lexAux_quote (s : String) (x : List Char) :
    lexAux (quoteStr s ++ x) none =
      (lexAux x none).map (fun ts => Tok.str s :: ts) := by
  show lexAux ('"' :: ((escapeChars s.data ++ ['"']) ++ x)) none = _
  have h1 : lexAux ('"' :: ((escapeChars s.data ++ ['"']) ++ x)) none =
      lexAux ((escapeChars s.data ++ ['"']) ++ x) (some []) := by simp [lexAux]
  rw [h1, List.append_assoc, List.singleton_append, lexAux_escape s.data [] x]
  rfl

mutual

/-- Lexing the serialized form of one entry produces its token stream and
continues with the rest of the input. -/
theorem lex_serializePair (k : String) (v : Node) (d : Nat) (x : List Char) :
    lexAux (serializePair k v d ++ x) none =
      (lexAux x none).map (fun ts => tokensPair k v ++ ts) := by
  cases v with
  | leaf s =>
    rw [serializePair]
    simp only [List.append_assoc, List.cons_append, List.nil_append]
    rw [lexAux_indent, lexAux_quote, lexAux_space, lexAux_quote, lexAux_newline]
    cases lexAux x none <;> simp [tokensPair]
  | sec es =>
    rw [serializePair]
    simp only [List.append_assoc, List.cons_append, List.nil_append]
    rw [lexAux_indent, lexAux_quote, lexAux_newline, lexAux_indent, lexAux_lbrace,
      lexAux_newline, lex_serializeEntries es (d + 1), lexAux_indent, lexAux_rbrace,
      lexAux_newline]
    cases lexAux x none <;> simp [tokensPair]
termination_by sizeOf v

/-- Lexing the serialized form of a section's entries produces their token
stream and continues with the rest of the input. -/
theorem lex_serializeEntries (es : List (String × Node)) (d : Nat) (x : List Char) :
    lexAux (serializeEntries es d ++ x) none =
      (lexAux x none).map (fun ts => tokensEntries es ++ ts) := by
  cases es with
  | nil => simp [serializeEntries, tokensEntries]
  | cons p rest =>
    obtain ⟨k, v⟩ := p
    rw [serializeEntries]
    simp only [List.append_assoc]
    rw [lex_serializePair k v d, lex_serializeEntries rest d]
    cases lexAux x none <;> simp [tokensEntries]
termination_by sizeOf es

end

theorem NodeWF_sec_inv {es : List (String × Node)} (h : NodeWF (Node.sec es)) :
    SectionWF es := by
  cases h; assumption

theorem SectionWF_head_not_mem {k : String} {v : Node} {rest : List (String × Node)}
    (h : SectionWF ((k, v) :: rest)) : k ∉ rest.map Prod.fst := by
  cases h; assumption

theorem SectionWF_head_wf {k : String} {v : Node} {rest : List (String × Node)}
    (h : SectionWF ((k, v) :: rest)) : NodeWF v := by
  cases h; assumption

theorem SectionWF_tail {k : String} {v : Node} {rest : List (String × Node)}
    (h : SectionWF ((k, v) :: rest)) : SectionWF rest := by
  cases h; assumption

mutual

/-- Feeding the token stream of one well-formed entry to the parser, with
a key not already bound in the current accumulator, appends the entry. -/
theorem parseLoop_tokensPair : ∀ (k : String) (v : Node), NodeWF v →
    ∀ (acc : List (String × Node)) (stk : List (String × List (String × Node)))
      (rest : List Tok), k ∉ acc.map Prod.fst →
      parseLoop (tokensPair k v ++ rest) acc stk =
        parseLoop rest (acc ++ [(k, v)]) stk
  | k, Node.leaf s, _ => fun acc stk rest hk => by
    show parseLoop (Tok.str k :: Tok.str s :: rest) acc stk = _
    show parseLoop rest (dinsert acc k (Node.leaf s)) stk = _
    rw [dinsert_of_not_mem (Node.leaf s) hk]
  | k, Node.sec es, hv => fun acc stk rest hk => by
    have hes : SectionWF es := NodeWF_sec_inv hv
    show parseLoop ((Tok.str k :: Tok.lbrace :: (tokensEntries es ++ [Tok.rbrace]))
      ++ rest) acc stk = _
    rw [show (Tok.str k :: Tok.lbrace :: (tokensEntries es ++ [Tok.rbrace])) ++ rest
        = Tok.str k :: Tok.lbrace :: (tokensEntries es ++ (Tok.rbrace :: rest)) by
      simp]
    show parseLoop (tokensEntries es ++ (Tok.rbrace :: rest)) [] ((k, acc) :: stk) = _
    rw [parseLoop_tokensEntries es hes [] ((k, acc) :: stk) (Tok.rbrace :: rest)
      (fun k' _ => List.not_mem_nil k')]
    show parseLoop rest (dinsert acc k (Node.sec ([] ++ es))) stk = _
    rw [List.nil_append, dinsert_of_not_mem (Node.sec es) hk]
termination_by k v _ => sizeOf v

/-- Feeding the token stream of a well-formed entry list to the parser,
with keys disjoint from the current accumulator, appends the entries. -/
theorem parseLoop_tokensEntries : ∀ (es : List (String × Node)), SectionWF es →
    ∀ (acc : List (String × Node)) (stk : List (String × List (String × Node)))
      (rest : List Tok), (∀ k' ∈ es.map Prod.fst, k' ∉ acc.map Prod.fst) →
      parseLoop (tokensEntries es ++ rest) acc stk =
        parseLoop rest (acc ++ es) stk
  | [], _ => fun acc stk rest _ => by
    rw [List.append_nil]
    rfl
  | (k, v) :: rest', hes => fun acc stk rest h => by
    rw [tokensEntries, List.append_assoc]
    rw [parseLoop_tokensPair k v (SectionWF_head_wf hes) acc stk _ (h k (by simp))]
    have hdisj : ∀ k' ∈ rest'.map Prod.fst,
        k' ∉ (acc ++ [(k, v)]).map Prod.fst := by
      intro k' hk'
      simp only [List.map_append, List.mem_append, List.map_cons, List.map_nil,
        List.mem_singleton, not_or]
      refine ⟨h k' (by simp [hk']), ?_⟩
      intro hkk
      exact SectionWF_head_not_mem hes (hkk ▸ hk')
    rw [parseLoop_tokensEntries rest' (SectionWF_tail hes) (acc ++ [(k, v)]) stk
      rest hdisj]
    simp
termination_by es _ => sizeOf es

end

/-- Dict-style insertion preserves well-formedness of a section. -/
theorem SectionWF_dinsert {es : List (String × Node)} (h : SectionWF es)
    {v : Node} (hv : NodeWF v) (k : String) : SectionWF (dinsert es k v) := by
  induction es with
  | nil =>
    exact SectionWF.cons k v [] (by simp) hv SectionWF.nil
  | cons p rest ih =>
    obtain ⟨k', v'⟩ := p
    by_cases hk : k' = k
    · rw [dinsert, if_pos hk]
      exact SectionWF.cons k' v rest (SectionWF_head_not_mem h) hv (SectionWF_tail h)
    · rw [dinsert, if_neg hk]
      refine SectionWF.cons k' v' (dinsert rest k v) ?_ (SectionWF_head_wf h)
        (ih (SectionWF_tail h))
      by_cases hmem : k ∈ rest.map Prod.fst
      · rw [map_fst_dinsert_mem v hmem]
        exact SectionWF_head_not_mem h
      · rw [map_fst_dinsert_not_mem v hmem]
        simp only [List.mem_append, List.mem_singleton, not_or]
        exact ⟨SectionWF_head_not_mem h, hk⟩

/-- Every section the parser builds is well-formed: the accumulator and
every stacked partial section stay well-formed through each step. -/
theorem parseLoop_wf : ∀ (ts : List Tok) (acc : List (String × Node))
    (stk : List (String × List (String × Node))) (es : List (String × Node)),
    SectionWF acc → (∀ p ∈ stk, SectionWF p.2) → parseLoop ts acc stk = some es →
    SectionWF es
  | [], acc, [], es => fun ha _ hp => by
    rw [show parseLoop [] acc [] = some acc from rfl] at hp
    exact (Option.some_inj.mp hp) ▸ ha
  | [], _, _ :: _, _ => fun _ _ hp => Option.noConfusion hp
  | Tok.str k :: Tok.str v :: ts, acc, stk, es => fun ha hs hp =>
    parseLoop_wf ts (dinsert acc k (Node.leaf v)) stk es
      (SectionWF_dinsert ha (NodeWF.leaf v) k) hs hp
  | Tok.str k :: Tok.lbrace :: ts, acc, stk, es => fun ha hs hp =>
    parseLoop_wf ts [] ((k, acc) :: stk) es SectionWF.nil
      (fun p hp' => by
        rcases List.mem_cons.mp hp' with h | h
        · rw [h]; exact ha
        · exact hs p h) hp
  | Tok.rbrace :: ts, acc, (k, up) :: stk, es => fun ha hs hp =>
    parseLoop_wf ts (dinsert up k (Node.sec acc)) stk es
      (SectionWF_dinsert (hs (k, up) (List.mem_cons_self _ _)) (NodeWF.sec _ ha) k)
      (fun p h => hs p (List.mem_cons_of_mem _ h)) hp
  | Tok.str _ :: [], _, _, _ => fun _ _ hp => Option.noConfusion hp
  | Tok.str _ :: Tok.rbrace :: _, _, _, _ => fun _ _ hp => Option.noConfusion hp
  | Tok.lbrace :: _, _, _, _ => fun _ _ hp => Option.noConfusion hp
  | Tok.rbrace :: _, _, [], _ => fun _ _ hp => Option.noConfusion hp

/-- Every document `Parse` produces is well-formed: all sections, at every
nesting level, have pairwise distinct keys (last-write-wins collapses any
duplicate sibling keys during parsing). -/
theorem Parse_wf {b : List Char} {d : Document} (h : Parse b = some d) :
    SectionWF d := by
  unfold Parse at h
  cases hlex : lexAux b none with
  | none => rw [hlex] at h; exact Option.noConfusion h
  | some ts =>
    rw [hlex] at h
    exact parseLoop_wf ts [] [] d SectionWF.nil (by simp) h

/-- Serializing a well-formed document and parsing the output returns the
document unchanged. -/
theorem serialize_roundtrip (d : Document) (h : SectionWF d) :
    Parse (Serialize d) = some d := by
  have h1 := lex_serializeEntries d 0 []
  rw [List.append_nil] at h1
  have h2 : lexAux (serializeEntries d 0) none = some (tokensEntries d) := by
    rw [h1]
    show Option.map _ (some []) = _
    simp
  show (match lexAux (serializeEntries d 0) none with
        | none => none
        | some ts => parseLoop ts [] []) = some d
  rw [h2]
  show parseLoop (tokensEntries d) [] [] = some d
  have h3 := parseLoop_tokensEntries d h [] [] [] (fun k' _ => List.not_mem_nil k')
  rw [List.append_nil] at h3
  rw [h3]
  rfl

/-- C4: for every input byte string `b`, if `Parse b` produces a document
`d`, then parsing the serialization of `d` yields a document structurally
equal to `d`: the same keys, in the same order, with the same values at
every nesting level. -/
theorem claim_C4 : ∀ (b : List Char) (d : Document), Parse b = some d →
    Parse (Serialize d) = some d :=
  fun _ d h => serialize_roundtrip d (Parse_wf h)

/-- Witness for C4 on a small two-level document. -/
theorem claim_C4_witness :
    Parse ("\"10\"\n\x7b\n\t\"LaunchOptions\" \"-a\"\n\x7d\n".data) =
      some [("10", Node.sec [("LaunchOptions", Node.leaf "-a")])] ∧
    Parse (Serialize [("10", Node.sec [("LaunchOptions", Node.leaf "-a")])]) =
      some [("10", Node.sec [("LaunchOptions", Node.leaf "-a")])] :=
  ⟨rfl, claim_C4 ("\"10\"\n\x7b\n\t\"LaunchOptions\" \"-a\"\n\x7d\n".data)
    [("10", Node.sec [("LaunchOptions", Node.leaf "-a")])] rfl⟩
